import Mathlib

/-!
Shallow embedding of the resume-parser repository (hhs98/resume-parser-ai)
for checking its natural-language specification.

Python JSON-like values (the output of `json.loads` and the inputs of the
normalization layer in `src/parser.py`) are modelled by the inductive type
`PyVal`.  Python exceptions raised by attribute access on a value that lacks
the attribute (`.get` on a non-dict, `.lower` on a non-string) are modelled
with `Except PyErr`.  Machine-level details that no claim touches (floating
point JSON numbers, full-Unicode case mapping) are modelled at the ASCII /
integer level, which is exact on every value the claims mention.
-/

/-- A Python value as produced by `json.loads`: `None`, `bool`, `int`,
`str`, `list`, or `dict` with string keys (JSON object keys are strings;
insertion order is preserved, as in Python 3.7+ dicts). -/
inductive PyVal where
  | none : PyVal
  | bool (b : Bool) : PyVal
  | int (n : Int) : PyVal
  | str (s : String) : PyVal
  | list (xs : List PyVal) : PyVal
  | dict (fields : List (String × PyVal)) : PyVal

/-- A Python exception relevant to the embedded code: `AttributeError`
raised when the named attribute is missing on the receiver
(`.get` on a non-dict, `.lower` on a non-string). -/
inductive PyErr where
  | attributeError (attr : String) : PyErr
deriving DecidableEq

/-- Python truthiness (`bool(v)`): `None`, `False`, `0`, `""`, `[]`, `{}`
are falsy, everything else truthy. -/
def pyTruthy : PyVal → Bool
  | .none => false
  | .bool b => b
  | .int n => n != 0
  | .str s => s != ""
  | .list xs => !xs.isEmpty
  | .dict fs => !fs.isEmpty

/-- Python `dict.get(k, d)`: the stored value when the key is present
(even a falsy one), otherwise the default `d`.  Python dicts built by
`json.loads` have unique keys, so first-match lookup is exact. -/
def dictGetD (fields : List (String × PyVal)) (k : String) (d : PyVal) : PyVal :=
  match fields with
  | [] => d
  | (k', v) :: rest => if k' = k then v else dictGetD rest k d

/-- The pervasive `x or ""` pattern: keep a truthy value, replace a falsy
one by the empty string. -/
def orEmpty (v : PyVal) : PyVal :=
  if pyTruthy v then v else .str ""

/-- Whether a character is stripped by Python `str.strip()` (ASCII
whitespace; the claims never exercise non-ASCII whitespace). -/
def isPySpace (c : Char) : Bool :=
  c = ' ' || c = '\t' || c = '\n' || c = '\r' || c = '\x0b' || c = '\x0c'

/-- `str.strip()` on a character list: drop leading and trailing
whitespace. -/
def pyStripList (cs : List Char) : List Char :=
  ((cs.dropWhile isPySpace).reverse.dropWhile isPySpace).reverse

/-- Python `str.strip()`. -/
def pyStrip (s : String) : String :=
  String.mk (pyStripList s.data)

/-- The 26 ASCII uppercase letters with their lowercase forms. -/
def upperLowerTable : List (Char × Char) :=
  [('A', 'a'), ('B', 'b'), ('C', 'c'), ('D', 'd'), ('E', 'e'), ('F', 'f'),
   ('G', 'g'), ('H', 'h'), ('I', 'i'), ('J', 'j'), ('K', 'k'), ('L', 'l'),
   ('M', 'm'), ('N', 'n'), ('O', 'o'), ('P', 'p'), ('Q', 'q'), ('R', 'r'),
   ('S', 's'), ('T', 't'), ('U', 'u'), ('V', 'v'), ('W', 'w'), ('X', 'x'),
   ('Y', 'y'), ('Z', 'z')]

/-- ASCII lower-casing of one character, as Python `str.lower()` does on
ASCII input (no claim exercises non-ASCII case mapping). -/
def pyLowerChar (c : Char) : Char :=
  ((upperLowerTable.find? (fun p => p.1 = c)).map Prod.snd).getD c

/-- Python `str.lower()`. -/
def pyLowerStr (s : String) : String :=
  String.mk (s.data.map pyLowerChar)

/-- `v.lower()` on a Python value: succeeds on strings, raises
`AttributeError` on anything else. -/
def pyLowerField (v : PyVal) : Except PyErr PyVal :=
  match v with
  | .str s => .ok (.str (pyLowerStr s))
  | _ => .error (.attributeError "lower")

mutual

/-- Python `repr` of a JSON-like value (`str()` falls back to this on
non-string values).  String quoting ignores escaping of quote characters,
which no claim exercises. -/
def pyRepr : PyVal → String
  | .none => "None"
  | .bool true => "True"
  | .bool false => "False"
  | .int n => toString n
  | .str s => "'" ++ s ++ "'"
  | .list xs => "[" ++ pyReprItems xs ++ "]"
  | .dict fs => "\x7b" ++ pyReprFields fs ++ "\x7d"

/-- Comma-separated `repr`s of list items. -/
def pyReprItems : List PyVal → String
  | [] => ""
  | [x] => pyRepr x
  | x :: rest => pyRepr x ++ ", " ++ pyReprItems rest

/-- Comma-separated `repr`s of dict entries. -/
def pyReprFields : List (String × PyVal) → String
  | [] => ""
  | [(k, v)] => "'" ++ k ++ "': " ++ pyRepr v
  | (k, v) :: rest => "'" ++ k ++ "': " ++ pyRepr v ++ ", " ++ pyReprFields rest

end

/-- Python `str(v)`: identity on strings, `repr`-like otherwise. -/
def pyStr : PyVal → String
  | .str s => s
  | v => pyRepr v

namespace ResumeParser

/-- `ResumeParser._normalize_user_info` (src/parser.py:97-106): a non-dict
becomes `{}`; each of the five scalar fields is read with default `""`
and falsy values fail over to `""`. -/
def _normalize_user_info (user_info : PyVal) : PyVal :=
  let fs := match user_info with
    | .dict fs => fs
    | _ => []
  .dict [
    ("name", orEmpty (dictGetD fs "name" (.str ""))),
    ("date_of_birth", orEmpty (dictGetD fs "date_of_birth" (.str ""))),
    ("gender", orEmpty (dictGetD fs "gender" (.str ""))),
    ("email", orEmpty (dictGetD fs "email" (.str ""))),
    ("phone_number", orEmpty (dictGetD fs "phone_number" (.str "")))]

/-- The loop body of `_normalize_addresses` for one kept (dict) element:
`type` is `(address.get("type") or "").lower()` (which raises on a truthy
non-string), the other fields are `address.get(f, "") or ""`. -/
def normalizeAddressEntry (fs : List (String × PyVal)) : Except PyErr PyVal :=
  match pyLowerField (orEmpty (dictGetD fs "type" .none)) with
  | .error e => .error e
  | .ok ty => .ok (.dict [
    ("type", ty),
    ("address", orEmpty (dictGetD fs "address" (.str ""))),
    ("post_name", orEmpty (dictGetD fs "post_name" (.str ""))),
    ("post_code", orEmpty (dictGetD fs "post_code" (.str "")))])

/-- The `for address in addresses` loop of `_normalize_addresses`:
non-dict elements are skipped, dict elements are normalized in order. -/
def normalizeAddressList : List PyVal → Except PyErr (List PyVal)
  | [] => .ok []
  | .dict fs :: rest =>
      match normalizeAddressEntry fs with
      | .error e => .error e
      | .ok e =>
          match normalizeAddressList rest with
          | .error e' => .error e'
          | .ok es => .ok (e :: es)
  | _ :: rest => normalizeAddressList rest

/-- `ResumeParser._normalize_addresses` (src/parser.py:108-121). -/
def _normalize_addresses (addresses : PyVal) : Except PyErr PyVal :=
  match addresses with
  | .list xs => (normalizeAddressList xs).map .list
  | _ => .ok (.list [])

/-- The loop body of `_normalize_academic_education` for one kept (dict)
element: `levels` is `(entry.get("levels") or "").lower()`, the other five
fields are `entry.get(f, "") or ""`. -/
def normalizeEducationEntry (fs : List (String × PyVal)) : Except PyErr PyVal :=
  match pyLowerField (orEmpty (dictGetD fs "levels" .none)) with
  | .error e => .error e
  | .ok lv => .ok (.dict [
    ("levels", lv),
    ("subject", orEmpty (dictGetD fs "subject" (.str ""))),
    ("board", orEmpty (dictGetD fs "board" (.str ""))),
    ("institute", orEmpty (dictGetD fs "institute" (.str ""))),
    ("passing_year", orEmpty (dictGetD fs "passing_year" (.str ""))),
    ("result", orEmpty (dictGetD fs "result" (.str "")))])

/-- The `for entry in entries` loop of `_normalize_academic_education`. -/
def normalizeEducationList : List PyVal → Except PyErr (List PyVal)
  | [] => .ok []
  | .dict fs :: rest =>
      match normalizeEducationEntry fs with
      | .error e => .error e
      | .ok e =>
          match normalizeEducationList rest with
          | .error e' => .error e'
          | .ok es => .ok (e :: es)
  | _ :: rest => normalizeEducationList rest

/-- `ResumeParser._normalize_academic_education` (src/parser.py:123-138). -/
def _normalize_academic_education (entries : PyVal) : Except PyErr PyVal :=
  match entries with
  | .list xs => (normalizeEducationList xs).map .list
  | _ => .ok (.list [])

/-- The `currently_working` coercion of `_normalize_employment`
(src/parser.py:147-149,156): read with default `False`; a string is
stripped, lower-cased and tested against {"yes","true","1"}; the final
`bool(...)` is Python truthiness. -/
def coerceCurrentlyWorking (v : PyVal) : Bool :=
  match v with
  | .str s => ["yes", "true", "1"].contains (pyLowerStr (pyStrip s))
  | v => pyTruthy v

/-- The loop body of `_normalize_employment` for one kept (dict)
element. -/
def normalizeEmploymentEntry (fs : List (String × PyVal)) : PyVal :=
  .dict [
    ("company_name", orEmpty (dictGetD fs "company_name" (.str ""))),
    ("company_type", orEmpty (dictGetD fs "company_type" (.str ""))),
    ("position", orEmpty (dictGetD fs "position" (.str ""))),
    ("joining_date", orEmpty (dictGetD fs "joining_date" (.str ""))),
    ("leaving_date", orEmpty (dictGetD fs "leaving_date" (.str ""))),
    ("currently_working", .bool (coerceCurrentlyWorking (dictGetD fs "currently_working" (.bool false)))),
    ("responsibility", orEmpty (dictGetD fs "responsibility" (.str "")))]

/-- The `for entry in entries` loop of `_normalize_employment`. -/
def normalizeEmploymentList : List PyVal → List PyVal
  | [] => []
  | .dict fs :: rest => normalizeEmploymentEntry fs :: normalizeEmploymentList rest
  | _ :: rest => normalizeEmploymentList rest

/-- `ResumeParser._normalize_employment` (src/parser.py:140-159); this
normalizer is total. -/
def _normalize_employment (entries : PyVal) : PyVal :=
  match entries with
  | .list xs => .list (normalizeEmploymentList xs)
  | _ => .list []

/-- The category-flattening step of `_normalize_skills`: of a dict's
values, list-valued ones are concatenated in insertion order, the rest are
dropped. -/
def flattenSkillValues : List (String × PyVal) → List PyVal
  | [] => []
  | (_, .list xs) :: rest => xs ++ flattenSkillValues rest
  | _ :: rest => flattenSkillValues rest

/-- The collection loop of `_normalize_skills`: a string is stripped; a
dict carrying a "name" key contributes `str(skill.get("name") or "").strip()`;
anything else is dropped. -/
def collectSkills : List PyVal → List String
  | [] => []
  | .str s :: rest => pyStrip s :: collectSkills rest
  | .dict fs :: rest =>
      if (fs.map Prod.fst).contains "name" then
        pyStrip (pyStr (orEmpty (dictGetD fs "name" .none))) :: collectSkills rest
      else
        collectSkills rest
  | _ :: rest => collectSkills rest

/-- `ResumeParser._normalize_skills` (src/parser.py:161-177); this
normalizer is total. -/
def _normalize_skills (skills : PyVal) : PyVal :=
  let items := match skills with
    | .dict fs => flattenSkillValues fs
    | .list xs => xs
    | _ => []
  .list (((collectSkills items).filter (· ≠ "")).map .str)

/-- `ResumeParser._normalize_output` (src/parser.py:77-95): on a dict,
each top-level field is read with its empty default and normalized; on any
non-dict, `data.get(...)` raises `AttributeError`. -/
def _normalize_output (data : PyVal) : Except PyErr PyVal :=
  match data with
  | .dict fields =>
      match _normalize_addresses (dictGetD fields "addresses" (.list [])) with
      | .error e => .error e
      | .ok ad =>
          match _normalize_academic_education (dictGetD fields "academic_education" (.list [])) with
          | .error e => .error e
          | .ok ed => .ok (.dict [
              ("user_info", _normalize_user_info (dictGetD fields "user_info" (.dict []))),
              ("addresses", ad),
              ("academic_education", ed),
              ("employment", _normalize_employment (dictGetD fields "employment" (.list []))),
              ("skills", _normalize_skills (dictGetD fields "skills" (.list [])))])
  | _ => .error (.attributeError "get")

/-- The text-sufficiency guard of `ResumeParser.parse` (src/parser.py:63):
`not resume_text or len(resume_text.strip()) < 10` — `True` means parse
raises `ValueError` without calling the provider. -/
def insufficientText (resume_text : String) : Bool :=
  resume_text == "" || (pyStrip resume_text).length < 10

end ResumeParser

namespace PDFExtractor

/-- `re.sub(r'\n\x7b3,\x7d', '\n\n', text)` of `_clean_text`
(src/pdf_extractor.py:76): a maximal run of `k` newlines becomes
`min k 2` newlines; `k` counts the newlines accumulated so far. -/
def nlCollapseAux : Nat → List Char → List Char
  | k, [] => List.replicate (min k 2) '\n'
  | k, c :: rest =>
      if c = '\n' then nlCollapseAux (k + 1) rest
      else List.replicate (min k 2) '\n' ++ c :: nlCollapseAux 0 rest

/-- A character matched by the `[ \t]` class of `_clean_text`. -/
def isSpTab (c : Char) : Bool :=
  c = ' ' || c = '\t'

/-- `re.sub(r'[ \t]+', ' ', text)` of `_clean_text`
(src/pdf_extractor.py:78): a maximal run of spaces and tabs becomes one
space; the flag records whether a run is open. -/
def spaceTabCollapseAux : Bool → List Char → List Char
  | inRun, [] => if inRun then [' '] else []
  | inRun, c :: rest =>
      if isSpTab c then spaceTabCollapseAux true rest
      else if inRun then ' ' :: c :: spaceTabCollapseAux false rest
      else c :: spaceTabCollapseAux false rest

/-- Python `text.split('\n')` on a character list. -/
def splitOnNL : List Char → List (List Char)
  | [] => [[]]
  | c :: rest =>
      match splitOnNL rest with
      | [] => [[c]]
      | l :: ls => if c = '\n' then [] :: l :: ls else (c :: l) :: ls

/-- Python `'\n'.join(...)` on character-list lines. -/
def joinNL : List (List Char) → List Char
  | [] => []
  | [l] => l
  | l :: rest => l ++ '\n' :: joinNL rest

/-- The blank-line collapsing loop of `_clean_text`
(src/pdf_extractor.py:82-90): a non-empty line is kept, an empty line is
kept only when the previous kept line was not empty. -/
def dedupBlankLines : Bool → List (List Char) → List (List Char)
  | _, [] => []
  | prevEmpty, l :: rest =>
      if l.isEmpty then
        if prevEmpty then dedupBlankLines true rest
        else [] :: dedupBlankLines true rest
      else l :: dedupBlankLines false rest

/-- The line list built by `_clean_text` just before the final join:
newline runs collapsed, space/tab runs collapsed, each line stripped,
consecutive blank lines collapsed. -/
def cleanLines (cs : List Char) : List (List Char) :=
  dedupBlankLines false
    ((splitOnNL (spaceTabCollapseAux false (nlCollapseAux 0 cs))).map pyStripList)

/-- `PDFExtractor._clean_text` (src/pdf_extractor.py:64-92) on a character
list: collapse newline runs of 3+ to 2, collapse space/tab runs to one
space, strip each line, collapse consecutive blank lines to one, join and
strip. -/
def cleanTextList (cs : List Char) : List Char :=
  pyStripList (joinNL (cleanLines cs))

/-- `PDFExtractor._clean_text` on strings. -/
def _clean_text (text : String) : String :=
  String.mk (cleanTextList text.data)

end PDFExtractor

namespace OllamaExtractor

/-- Python `hay.find(needle)` (first index of a substring), as an
`Option Nat` in place of the `-1` sentinel. -/
def findSub (needle : List Char) : List Char → Option Nat
  | [] => if needle.isPrefixOf ([] : List Char) then some 0 else Option.none
  | c :: t =>
      if needle.isPrefixOf (c :: t) then some 0
      else (findSub needle t).map (· + 1)

/-- Python `hay.find(needle, start)`. -/
def findSubFrom (needle : List Char) (hay : List Char) (start : Nat) : Option Nat :=
  (findSub needle (hay.drop start)).map (· + start)

/-- Python `hay.rfind(c)` (last index of a character). -/
def rfindChar (c : Char) (hay : List Char) : Option Nat :=
  (findSub [c] hay.reverse).map (fun i => hay.length - 1 - i)

/-- Python slice `cs[a:b]` for `0 ≤ a ≤ b` (`b` past the end clamps). -/
def slice (cs : List Char) (a b : Nat) : List Char :=
  (cs.drop a).take (b - a)

/-- The `\x7b...\x7d`-span fallback of `_extract_json_from_response`
(src/ollama_extractor.py:115-122): the span from the first `\x7b` to the
last `\x7d` when that span is non-empty, otherwise the stripped text. -/
def braceFallback (cs : List Char) : List Char :=
  let endPos : Nat := match rfindChar '\x7d' cs with
    | some j => j + 1
    | Option.none => 0
  match findSub ['\x7b'] cs with
  | some s => if s < endPos then slice cs s endPos else pyStripList cs
  | Option.none => pyStripList cs

/-- `OllamaExtractor._extract_json_from_response`
(src/ollama_extractor.py:93-122) on a character list: strip a
```` ```json ````-tagged fence, else a bare ```` ``` ```` fence, falling
through to the brace span, falling through to the stripped text.  When a
fence opener is found but no closing fence follows, control falls through
to the brace logic, exactly as in the source. -/
def extractJsonList (cs : List Char) : List Char :=
  match findSub "```json".data cs with
  | some i =>
      match findSubFrom "```".data cs (i + 7) with
      | some e => pyStripList (slice cs (i + 7) e)
      | Option.none => braceFallback cs
  | Option.none =>
      match findSub "```".data cs with
      | some i =>
          match findSubFrom "```".data cs (i + 3) with
          | some e => pyStripList (slice cs (i + 3) e)
          | Option.none => braceFallback cs
      | Option.none => braceFallback cs

/-- `OllamaExtractor._extract_json_from_response` on strings. -/
def _extract_json_from_response (response_text : String) : String :=
  String.mk (extractJsonList response_text.data)

end OllamaExtractor

/-- Projection used to state field-level properties: the value stored
under key `k` when `v` is a dict, else Python `None`. -/
def getField (v : PyVal) (k : String) : PyVal :=
  match v with
  | .dict fs => dictGetD fs k .none
  | _ => .none

/-- The top-level keys of a dict value, in order. -/
def topKeys : PyVal → List String
  | .dict fs => fs.map Prod.fst
  | _ => []

/-- The items of a list value (used to state list-level properties). -/
def listItems : PyVal → List PyVal
  | .list xs => xs
  | _ => []

/-- Whether `(v or "").lower()` succeeds in Python: it does exactly when
`v` is a string or falsy. -/
def lowerOK (v : PyVal) : Bool :=
  match v with
  | .str _ => true
  | v => !pyTruthy v

/-- Whether one element of a list-of-record field survives `.lower()` on
the enumerated sub-field `key`: non-dict elements are skipped, so they are
always fine. -/
def entryLowerOK (key : String) (e : PyVal) : Bool :=
  match e with
  | .dict fs => lowerOK (dictGetD fs key .none)
  | _ => true

/-- Whether a list-of-record field value is safe for normalization with
enumerated sub-field `key`: non-list values are replaced by `[]`, so they
are always fine. -/
def entriesLowerOK (key : String) (v : PyVal) : Bool :=
  match v with
  | .list l => l.all (entryLowerOK key)
  | _ => true

/-- The exact domain on which `_normalize_output` returns instead of
raising: a dict whose `addresses` elements have a string-or-falsy `type`
and whose `academic_education` elements have a string-or-falsy
`levels`. -/
def normalizeOutputOK (data : PyVal) : Bool :=
  match data with
  | .dict fs =>
      entriesLowerOK "type" (dictGetD fs "addresses" (.list [])) &&
      entriesLowerOK "levels" (dictGetD fs "academic_education" (.list []))
  | _ => false

/-- Scanner for a run of three consecutive newlines: `k` counts the
newlines seen so far in the current run. -/
def hasNL3Aux : Nat → List Char → Bool
  | _, [] => false
  | k, c :: rest =>
      if c = '\n' then
        if 3 ≤ k + 1 then true else hasNL3Aux (k + 1) rest
      else hasNL3Aux 0 rest

/-- Whether a character list contains three consecutive newlines. -/
def hasNL3 (cs : List Char) : Bool :=
  hasNL3Aux 0 cs

/-! ## Basic lemmas about the Python primitives -/

theorem orEmpty_str (s : String) : orEmpty (.str s) = .str s := by
  by_cases h : s = "" <;> simp [orEmpty, pyTruthy, h]

theorem orEmpty_orEmpty (v : PyVal) : orEmpty (orEmpty v) = orEmpty v := by
  by_cases h : pyTruthy v = true
  · simp [orEmpty, h]
  · have h2 : orEmpty v = .str "" := by simp [orEmpty, h]
    rw [h2, orEmpty_str]

theorem pyLowerChar_idem (c : Char) : pyLowerChar (pyLowerChar c) = pyLowerChar c := by
  cases h : upperLowerTable.find? (fun p => p.1 = c) with
  | none => simp [pyLowerChar, h]
  | some p =>
      have hmem := List.mem_of_find?_eq_some h
      have h1 : pyLowerChar c = p.2 := by simp [pyLowerChar, h]
      rw [h1]
      fin_cases hmem <;> decide

theorem lowerCharList_idem (l : List Char) :
    (l.map pyLowerChar).map pyLowerChar = l.map pyLowerChar := by
  induction l with
  | nil => rfl
  | cons c t ih => simp [pyLowerChar_idem, ih]

theorem pyLowerStr_idem (s : String) : pyLowerStr (pyLowerStr s) = pyLowerStr s := by
  show String.mk ((s.data.map pyLowerChar).map pyLowerChar) = String.mk (s.data.map pyLowerChar)
  rw [lowerCharList_idem]

theorem pyStripList_eq (cs : List Char) :
    pyStripList cs = List.rdropWhile isPySpace (cs.dropWhile isPySpace) := rfl

theorem dropWhile_pyStripList (cs : List Char) :
    List.dropWhile isPySpace (pyStripList cs) = pyStripList cs := by
  rw [pyStripList_eq]
  cases hr : List.rdropWhile isPySpace (cs.dropWhile isPySpace) with
  | nil => rfl
  | cons a t =>
      have hpre : List.rdropWhile isPySpace (cs.dropWhile isPySpace) <+: cs.dropWhile isPySpace :=
        List.rdropWhile_prefix _ _
      rw [hr] at hpre
      obtain ⟨suf, hsuf⟩ := hpre
      have hy : List.dropWhile isPySpace (cs.dropWhile isPySpace) = cs.dropWhile isPySpace :=
        List.dropWhile_idempotent _ _
      have ha : ¬ isPySpace a = true := by
        have h0 := List.dropWhile_eq_self_iff.mp hy
        rw [← hsuf] at h0
        simpa using h0 (by simp)
      simp [List.dropWhile_cons, ha]

theorem pyStripList_idem (cs : List Char) :
    pyStripList (pyStripList cs) = pyStripList cs := by
  rw [pyStripList_eq (pyStripList cs), dropWhile_pyStripList, pyStripList_eq,
    List.rdropWhile_idempotent]

theorem pyStrip_idem (s : String) : pyStrip (pyStrip s) = pyStrip s := by
  show String.mk (pyStripList (pyStripList s.data)) = String.mk (pyStripList s.data)
  rw [pyStripList_idem]

/-! ## Success domain of the normalizers (claim C1) -/

theorem pyLowerField_orEmpty_ok (v : PyVal) (h : lowerOK v = true) :
    ∃ s, pyLowerField (orEmpty v) = .ok (.str s) := by
  cases v with
  | str s => exact ⟨pyLowerStr s, by rw [orEmpty_str]; exact rfl⟩
  | none => exact ⟨pyLowerStr "", rfl⟩
  | bool b =>
      have hb : b = false := by simpa [lowerOK, pyTruthy] using h
      subst hb; exact ⟨pyLowerStr "", rfl⟩
  | int n =>
      have hn : n = 0 := by simpa [lowerOK, pyTruthy] using h
      subst hn; exact ⟨pyLowerStr "", rfl⟩
  | list xs =>
      have hx : xs = [] := by simpa [lowerOK, pyTruthy] using h
      subst hx; exact ⟨pyLowerStr "", rfl⟩
  | dict fs =>
      have hx : fs = [] := by simpa [lowerOK, pyTruthy] using h
      subst hx; exact ⟨pyLowerStr "", rfl⟩

theorem pyLowerField_orEmpty_err (v : PyVal) (h : lowerOK v = false) :
    pyLowerField (orEmpty v) = .error (.attributeError "lower") := by
  have ht : pyTruthy v = true := by
    cases v <;> simp [lowerOK, pyTruthy] at h ⊢ <;> simp_all
  have h2 : orEmpty v = v := by simp [orEmpty, ht]
  rw [h2]
  cases v with
  | str s => simp [lowerOK] at h
  | none => rfl
  | bool b => rfl
  | int n => rfl
  | list xs => rfl
  | dict fs => rfl

theorem normalizeAddressList_ok_iff (xs : List PyVal) :
    (∃ l, ResumeParser.normalizeAddressList xs = .ok l) ↔
      xs.all (entryLowerOK "type") = true := by
  induction xs with
  | nil => simp [ResumeParser.normalizeAddressList]
  | cons x rest ih =>
      cases x with
      | dict fs =>
          by_cases hl : lowerOK (dictGetD fs "type" .none) = true
          · obtain ⟨s, hs⟩ := pyLowerField_orEmpty_ok _ hl
            have hentry : ResumeParser.normalizeAddressEntry fs = .ok (.dict [
                ("type", .str s),
                ("address", orEmpty (dictGetD fs "address" (.str ""))),
                ("post_name", orEmpty (dictGetD fs "post_name" (.str ""))),
                ("post_code", orEmpty (dictGetD fs "post_code" (.str "")))]) := by
              unfold ResumeParser.normalizeAddressEntry
              rw [hs]
            constructor
            · rintro ⟨l, hok⟩
              simp only [ResumeParser.normalizeAddressList, hentry] at hok
              cases hr : ResumeParser.normalizeAddressList rest with
              | error e => rw [hr] at hok; simp at hok
              | ok es =>
                  have hrest := ih.mp ⟨es, hr⟩
                  simp [List.all_cons, entryLowerOK, hl, hrest]
            · intro hall
              simp only [List.all_cons, entryLowerOK, hl, Bool.true_and] at hall
              obtain ⟨es, hes⟩ := ih.mpr hall
              exact ⟨.dict [("type", .str s),
                  ("address", orEmpty (dictGetD fs "address" (.str ""))),
                  ("post_name", orEmpty (dictGetD fs "post_name" (.str ""))),
                  ("post_code", orEmpty (dictGetD fs "post_code" (.str "")))] :: es,
                by simp [ResumeParser.normalizeAddressList, hentry, hes]⟩
          · have hl' : lowerOK (dictGetD fs "type" .none) = false := by
              simpa using hl
            have hentry : ResumeParser.normalizeAddressEntry fs =
                .error (.attributeError "lower") := by
              unfold ResumeParser.normalizeAddressEntry
              rw [pyLowerField_orEmpty_err _ hl']
            simp [ResumeParser.normalizeAddressList, hentry, List.all_cons, entryLowerOK, hl']
      | none => simpa [ResumeParser.normalizeAddressList, entryLowerOK] using ih
      | bool b => simpa [ResumeParser.normalizeAddressList, entryLowerOK] using ih
      | int n => simpa [ResumeParser.normalizeAddressList, entryLowerOK] using ih
      | str s => simpa [ResumeParser.normalizeAddressList, entryLowerOK] using ih
      | list ys => simpa [ResumeParser.normalizeAddressList, entryLowerOK] using ih

theorem normalizeEducationList_ok_iff (xs : List PyVal) :
    (∃ l, ResumeParser.normalizeEducationList xs = .ok l) ↔
      xs.all (entryLowerOK "levels") = true := by
  induction xs with
  | nil => simp [ResumeParser.normalizeEducationList]
  | cons x rest ih =>
      cases x with
      | dict fs =>
          by_cases hl : lowerOK (dictGetD fs "levels" .none) = true
          · obtain ⟨s, hs⟩ := pyLowerField_orEmpty_ok _ hl
            have hentry : ResumeParser.normalizeEducationEntry fs = .ok (.dict [
                ("levels", .str s),
                ("subject", orEmpty (dictGetD fs "subject" (.str ""))),
                ("board", orEmpty (dictGetD fs "board" (.str ""))),
                ("institute", orEmpty (dictGetD fs "institute" (.str ""))),
                ("passing_year", orEmpty (dictGetD fs "passing_year" (.str ""))),
                ("result", orEmpty (dictGetD fs "result" (.str "")))]) := by
              unfold ResumeParser.normalizeEducationEntry
              rw [hs]
            constructor
            · rintro ⟨l, hok⟩
              simp only [ResumeParser.normalizeEducationList, hentry] at hok
              cases hr : ResumeParser.normalizeEducationList rest with
              | error e => rw [hr] at hok; simp at hok
              | ok es =>
                  have hrest := ih.mp ⟨es, hr⟩
                  simp [List.all_cons, entryLowerOK, hl, hrest]
            · intro hall
              simp only [List.all_cons, entryLowerOK, hl, Bool.true_and] at hall
              obtain ⟨es, hes⟩ := ih.mpr hall
              exact ⟨.dict [("levels", .str s),
                  ("subject", orEmpty (dictGetD fs "subject" (.str ""))),
                  ("board", orEmpty (dictGetD fs "board" (.str ""))),
                  ("institute", orEmpty (dictGetD fs "institute" (.str ""))),
                  ("passing_year", orEmpty (dictGetD fs "passing_year" (.str ""))),
                  ("result", orEmpty (dictGetD fs "result" (.str "")))] :: es,
                by simp [ResumeParser.normalizeEducationList, hentry, hes]⟩
          · have hl' : lowerOK (dictGetD fs "levels" .none) = false := by
              simpa using hl
            have hentry : ResumeParser.normalizeEducationEntry fs =
                .error (.attributeError "lower") := by
              unfold ResumeParser.normalizeEducationEntry
              rw [pyLowerField_orEmpty_err _ hl']
            simp [ResumeParser.normalizeEducationList, hentry, List.all_cons, entryLowerOK, hl']
      | none => simpa [ResumeParser.normalizeEducationList, entryLowerOK] using ih
      | bool b => simpa [ResumeParser.normalizeEducationList, entryLowerOK] using ih
      | int n => simpa [ResumeParser.normalizeEducationList, entryLowerOK] using ih
      | str s => simpa [ResumeParser.normalizeEducationList, entryLowerOK] using ih
      | list ys => simpa [ResumeParser.normalizeEducationList, entryLowerOK] using ih

theorem normalize_addresses_ok_iff (v : PyVal) :
    (∃ w, ResumeParser._normalize_addresses v = .ok w) ↔
      entriesLowerOK "type" v = true := by
  cases v with
  | list xs =>
      simp only [ResumeParser._normalize_addresses, entriesLowerOK]
      constructor
      · rintro ⟨w, hw⟩
        cases hr : ResumeParser.normalizeAddressList xs with
        | error e => rw [hr] at hw; simp [Except.map] at hw
        | ok l => exact (normalizeAddressList_ok_iff xs).mp ⟨l, hr⟩
      · intro hall
        obtain ⟨l, hl⟩ := (normalizeAddressList_ok_iff xs).mpr hall
        exact ⟨.list l, by simp [hl, Except.map]⟩
  | none => simp [ResumeParser._normalize_addresses, entriesLowerOK]
  | bool b => simp [ResumeParser._normalize_addresses, entriesLowerOK]
  | int n => simp [ResumeParser._normalize_addresses, entriesLowerOK]
  | str s => simp [ResumeParser._normalize_addresses, entriesLowerOK]
  | dict fs => simp [ResumeParser._normalize_addresses, entriesLowerOK]

theorem normalize_education_ok_iff (v : PyVal) :
    (∃ w, ResumeParser._normalize_academic_education v = .ok w) ↔
      entriesLowerOK "levels" v = true := by
  cases v with
  | list xs =>
      simp only [ResumeParser._normalize_academic_education, entriesLowerOK]
      constructor
      · rintro ⟨w, hw⟩
        cases hr : ResumeParser.normalizeEducationList xs with
        | error e => rw [hr] at hw; simp [Except.map] at hw
        | ok l => exact (normalizeEducationList_ok_iff xs).mp ⟨l, hr⟩
      · intro hall
        obtain ⟨l, hl⟩ := (normalizeEducationList_ok_iff xs).mpr hall
        exact ⟨.list l, by simp [hl, Except.map]⟩
  | none => simp [ResumeParser._normalize_academic_education, entriesLowerOK]
  | bool b => simp [ResumeParser._normalize_academic_education, entriesLowerOK]
  | int n => simp [ResumeParser._normalize_academic_education, entriesLowerOK]
  | str s => simp [ResumeParser._normalize_academic_education, entriesLowerOK]
  | dict fs => simp [ResumeParser._normalize_academic_education, entriesLowerOK]

/-! ## Claim C1 -/

/-- C1, counterexample: normalization is not total — on a bare list
(one of the very inputs the claim names) `data.get` raises
`AttributeError`, so `_normalize_output` fails instead of returning. -/
theorem normalize_output_raises_on_bare_list :
    ResumeParser._normalize_output (.list []) = .error (.attributeError "get") := rfl

/-- C1, amended: normalization returns a result exactly on dict inputs
whose `addresses` elements carry a string-or-falsy `type` and whose
`academic_education` elements carry a string-or-falsy `levels`; on every
other input — `null`, a bare list, a bare string, or a dict with a truthy
non-string `type`/`levels` nested inside — it raises `AttributeError`. -/
theorem normalize_output_ok_iff (data : PyVal) :
    (∃ v, ResumeParser._normalize_output data = .ok v) ↔ normalizeOutputOK data = true := by
  cases data with
  | dict fs =>
      simp only [ResumeParser._normalize_output, normalizeOutputOK]
      constructor
      · rintro ⟨v, hv⟩
        cases hA : ResumeParser._normalize_addresses (dictGetD fs "addresses" (.list [])) with
        | error e => rw [hA] at hv; simp at hv
        | ok ad =>
            cases hE : ResumeParser._normalize_academic_education
                (dictGetD fs "academic_education" (.list [])) with
            | error e => rw [hA, hE] at hv; simp at hv
            | ok ed =>
                have h1 := (normalize_addresses_ok_iff _).mp ⟨ad, hA⟩
                have h2 := (normalize_education_ok_iff _).mp ⟨ed, hE⟩
                simp [h1, h2]
      · intro h
        simp only [Bool.and_eq_true] at h
        obtain ⟨ad, hA⟩ := (normalize_addresses_ok_iff _).mpr h.1
        obtain ⟨ed, hE⟩ := (normalize_education_ok_iff _).mpr h.2
        exact ⟨_, by rw [hA, hE]⟩
  | none => simp [ResumeParser._normalize_output, normalizeOutputOK]
  | bool b => simp [ResumeParser._normalize_output, normalizeOutputOK]
  | int n => simp [ResumeParser._normalize_output, normalizeOutputOK]
  | str s => simp [ResumeParser._normalize_output, normalizeOutputOK]
  | list xs => simp [ResumeParser._normalize_output, normalizeOutputOK]

/-! ## Claim C3 -/

/-- C3: on the empty mapping `\x7b\x7d`, normalization returns the fully
defaulted record (empty-string scalars inside `user_info`, empty lists for
`addresses`, `academic_education`, `employment`, `skills`), and every
successful normalization has exactly the same five top-level keys in the
same order.  (JSON-serializability holds by construction: every `PyVal` is
a JSON value.) -/
theorem normalize_output_defaults_and_keys :
    ResumeParser._normalize_output (.dict []) = .ok (.dict [
      ("user_info", .dict [("name", .str ""), ("date_of_birth", .str ""),
        ("gender", .str ""), ("email", .str ""), ("phone_number", .str "")]),
      ("addresses", .list []),
      ("academic_education", .list []),
      ("employment", .list []),
      ("skills", .list [])])
    ∧ ∀ x v, ResumeParser._normalize_output x = .ok v →
        topKeys v = ["user_info", "addresses", "academic_education", "employment", "skills"] := by
  constructor
  · rfl
  · intro x v h
    cases x with
    | dict fs =>
        simp only [ResumeParser._normalize_output] at h
        cases hA : ResumeParser._normalize_addresses (dictGetD fs "addresses" (.list [])) with
        | error e => rw [hA] at h; simp at h
        | ok ad =>
            cases hE : ResumeParser._normalize_academic_education
                (dictGetD fs "academic_education" (.list [])) with
            | error e => rw [hA, hE] at h; simp at h
            | ok ed =>
                rw [hA, hE] at h
                simp only [Except.ok.injEq] at h
                rw [← h]
                rfl
    | none => simp [ResumeParser._normalize_output] at h
    | bool b => simp [ResumeParser._normalize_output] at h
    | int n => simp [ResumeParser._normalize_output] at h
    | str s => simp [ResumeParser._normalize_output] at h
    | list xs => simp [ResumeParser._normalize_output] at h

/-- C3, witness: the key-list fact instantiated at the concrete empty
mapping, with both hypotheses discharged by the first conjunct. -/
theorem normalize_output_defaults_and_keys_witness :
    topKeys (.dict [
      ("user_info", .dict [("name", .str ""), ("date_of_birth", .str ""),
        ("gender", .str ""), ("email", .str ""), ("phone_number", .str "")]),
      ("addresses", .list []),
      ("academic_education", .list []),
      ("employment", .list []),
      ("skills", .list [])]) =
      ["user_info", "addresses", "academic_education", "employment", "skills"] :=
  normalize_output_defaults_and_keys.2 (.dict []) _ normalize_output_defaults_and_keys.1

/-! ## Claim C4 -/

/-- C4, counterexample: the code's schema has no `personal_info` key — on
provider output `\x7b"personal_info": \x7b"name": "John Doe"\x7d\x7d` the
normalized record is the fully defaulted one: `user_info.name` is `""`,
not `"John Doe"`, there is no `personal_info` key in the output, and
`skills` is the empty list, not a `\x7b"technical", "soft"\x7d` mapping. -/
theorem normalize_output_ignores_personal_info :
    ResumeParser._normalize_output (.dict [("personal_info", .dict [("name", .str "John Doe")])]) =
      .ok (.dict [
        ("user_info", .dict [("name", .str ""), ("date_of_birth", .str ""),
          ("gender", .str ""), ("email", .str ""), ("phone_number", .str "")]),
        ("addresses", .list []),
        ("academic_education", .list []),
        ("employment", .list []),
        ("skills", .list [])]) := rfl

/-- C4, amended: with the code's actual schema key `user_info`, the
normalized record carries `user_info.name = "John Doe"`,
`user_info.email = ""`, empty `addresses`, `academic_education` and
`employment` lists, and the empty flat `skills` list. -/
theorem normalize_output_user_info_name :
    ResumeParser._normalize_output (.dict [("user_info", .dict [("name", .str "John Doe")])]) =
      .ok (.dict [
        ("user_info", .dict [("name", .str "John Doe"), ("date_of_birth", .str ""),
          ("gender", .str ""), ("email", .str ""), ("phone_number", .str "")]),
        ("addresses", .list []),
        ("academic_education", .list []),
        ("employment", .list []),
        ("skills", .list [])]) := rfl

/-! ## Claim C5 -/

/-- C5, counterexample: a non-boolean, non-string `currently_working`
does not always normalize to `false` — the truthy integer `1` yields
`true`. -/
theorem employment_truthy_int_gives_true :
    ResumeParser._normalize_employment (.list [.dict [("currently_working", .int 1)]]) =
      .list [.dict [
        ("company_name", .str ""), ("company_type", .str ""), ("position", .str ""),
        ("joining_date", .str ""), ("leaving_date", .str ""),
        ("currently_working", .bool true), ("responsibility", .str "")]] := rfl

/-- C5, amended: `currently_working` keeps a native boolean unchanged;
a string is trimmed, lower-cased and tested against
`\x7b"yes","true","1"\x7d` (`true` on a match, `false` on any other
string); every other value is coerced by Python truthiness (`bool(...)`) —
truthy values give `true`, falsy values give `false`.  In particular
`"Yes"` gives `true` and `"no"` gives `false`. -/
theorem currently_working_coercion :
    (∀ fs, getField (ResumeParser.normalizeEmploymentEntry fs) "currently_working" =
        .bool (ResumeParser.coerceCurrentlyWorking (dictGetD fs "currently_working" (.bool false))))
    ∧ (∀ b, ResumeParser.coerceCurrentlyWorking (.bool b) = b)
    ∧ (∀ s, pyLowerStr (pyStrip s) ∈ (["yes", "true", "1"] : List String) →
        ResumeParser.coerceCurrentlyWorking (.str s) = true)
    ∧ (∀ s, pyLowerStr (pyStrip s) ∉ (["yes", "true", "1"] : List String) →
        ResumeParser.coerceCurrentlyWorking (.str s) = false)
    ∧ (∀ v, (∀ b, v ≠ .bool b) → (∀ s, v ≠ .str s) →
        ResumeParser.coerceCurrentlyWorking v = pyTruthy v)
    ∧ ResumeParser.coerceCurrentlyWorking (.str "Yes") = true
    ∧ ResumeParser.coerceCurrentlyWorking (.str "no") = false := by
  refine ⟨fun fs => rfl, fun b => rfl, ?_, ?_, ?_, by decide, by decide⟩
  · intro s h
    simpa [ResumeParser.coerceCurrentlyWorking] using h
  · intro s h
    simpa [ResumeParser.coerceCurrentlyWorking] using h
  · intro v hb hs
    cases v with
    | bool b => exact absurd rfl (hb b)
    | str s => exact absurd rfl (hs s)
    | none => rfl
    | int n => rfl
    | list xs => rfl
    | dict fs => rfl

/-- C5, witness: the string and truthiness clauses instantiated at
concrete inputs (`" TRUE "` trims and lower-cases into the affirmative
set; `"nah"` does not; the non-empty list `[0]` is truthy). -/
theorem currently_working_coercion_witness :
    (pyLowerStr (pyStrip " TRUE ") ∈ (["yes", "true", "1"] : List String)
      ∧ ResumeParser.coerceCurrentlyWorking (.str " TRUE ") = true)
    ∧ (pyLowerStr (pyStrip "nah") ∉ (["yes", "true", "1"] : List String)
      ∧ ResumeParser.coerceCurrentlyWorking (.str "nah") = false)
    ∧ ResumeParser.coerceCurrentlyWorking (.list [.int 0]) = pyTruthy (.list [.int 0]) :=
  ⟨⟨by decide, currently_working_coercion.2.2.1 " TRUE " (by decide)⟩,
   ⟨by decide, currently_working_coercion.2.2.2.1 "nah" (by decide)⟩,
   currently_working_coercion.2.2.2.2.1 (.list [.int 0])
     (fun b h => by cases h) (fun s h => by cases h)⟩

/-! ## Claim C10 -/

/-- C10: the `parse` guard rejects exactly when the stripped text has
fewer than 10 characters; the separate `not resume_text` test adds
nothing, since the empty string also strips to length 0. -/
theorem parse_guard_iff_strip_short (t : String) :
    ResumeParser.insufficientText t = true ↔ (pyStrip t).length < 10 := by
  unfold ResumeParser.insufficientText
  by_cases h : t = ""
  · subst h; decide
  · simp [h]

/-! ## Claim C6 -/

theorem flattenSkillValues_of_lists (cats : List (String × List PyVal)) :
    ResumeParser.flattenSkillValues (cats.map (fun p => (p.1, PyVal.list p.2))) =
      (cats.map Prod.snd).flatten := by
  induction cats with
  | nil => rfl
  | cons p rest ih =>
      cases p with
      | mk k ys => simp [ResumeParser.flattenSkillValues, ih]

/-- C6: skills normalization is polymorphic on input shape.  A mapping of
categories to lists normalizes exactly like the concatenation of its value
lists in insertion order, labels discarded (shown concretely on
`\x7btechnical: [Python], soft: [Teamwork]\x7d`); in a list, a bare string
contributes its trimmed form unless it trims to empty, a mapping with a
string `name` likewise, and any other element is dropped. -/
theorem skills_normalization_polymorphic :
    ResumeParser._normalize_skills (.dict [("technical", .list [.str "Python"]),
        ("soft", .list [.str "Teamwork"])]) = .list [.str "Python", .str "Teamwork"]
    ∧ (∀ cats : List (String × List PyVal),
        ResumeParser._normalize_skills (.dict (cats.map (fun p => (p.1, PyVal.list p.2)))) =
          ResumeParser._normalize_skills (.list ((cats.map Prod.snd).flatten)))
    ∧ (∀ s xs, listItems (ResumeParser._normalize_skills (.list (.str s :: xs))) =
        (if pyStrip s = "" then [] else [.str (pyStrip s)]) ++
          listItems (ResumeParser._normalize_skills (.list xs)))
    ∧ (∀ fs s xs, (fs.map Prod.fst).contains "name" = true →
        dictGetD fs "name" .none = .str s →
        listItems (ResumeParser._normalize_skills (.list (.dict fs :: xs))) =
          (if pyStrip s = "" then [] else [.str (pyStrip s)]) ++
            listItems (ResumeParser._normalize_skills (.list xs)))
    ∧ (∀ v xs, (∀ s, v ≠ .str s) → (∀ fs, v ≠ .dict fs) →
        ResumeParser._normalize_skills (.list (v :: xs)) =
          ResumeParser._normalize_skills (.list xs)) := by
  refine ⟨rfl, ?_, ?_, ?_, ?_⟩
  · intro cats
    simp only [ResumeParser._normalize_skills, flattenSkillValues_of_lists]
  · intro s xs
    simp only [ResumeParser._normalize_skills, ResumeParser.collectSkills, listItems]
    by_cases h : pyStrip s = "" <;> simp [List.filter_cons, h]
  · intro fs s xs hname hval
    simp only [ResumeParser._normalize_skills, ResumeParser.collectSkills, hname, if_pos,
      listItems, hval, orEmpty_str]
    have hstr : pyStr (PyVal.str s) = s := rfl
    rw [hstr]
    by_cases h : pyStrip s = "" <;> simp [List.filter_cons, h]
  · intro v xs hs hfs
    cases v with
    | str s => exact absurd rfl (hs s)
    | dict fs => exact absurd rfl (hfs fs)
    | none => simp [ResumeParser._normalize_skills, ResumeParser.collectSkills]
    | bool b => simp [ResumeParser._normalize_skills, ResumeParser.collectSkills]
    | int n => simp [ResumeParser._normalize_skills, ResumeParser.collectSkills]
    | list ys => simp [ResumeParser._normalize_skills, ResumeParser.collectSkills]

/-- C6, witness: the hypothesis-bearing clauses instantiated concretely —
a name-mapping `\x7b"name": " C++ "\x7d` contributes `"C++"`, and the
integer `7` is dropped. -/
theorem skills_normalization_polymorphic_witness :
    listItems (ResumeParser._normalize_skills (.list [.dict [("name", .str " C++ ")]])) =
      (if pyStrip " C++ " = "" then [] else [PyVal.str (pyStrip " C++ ")]) ++
        listItems (ResumeParser._normalize_skills (.list []))
    ∧ ResumeParser._normalize_skills (.list [.int 7, .str "go"]) =
        ResumeParser._normalize_skills (.list [.str "go"]) :=
  ⟨skills_normalization_polymorphic.2.2.2.1 [("name", .str " C++ ")] " C++ " []
      (by decide) rfl,
   skills_normalization_polymorphic.2.2.2.2 (.int 7) [.str "go"]
      (fun s h => by cases h) (fun fs h => by cases h)⟩

/-! ## Claim C7 -/

/-- C7: for each list-of-record field (addresses, education entries,
employment entries): non-list input is treated as the empty list; an
element that is not itself a mapping is silently dropped; in a kept
element every expected scalar sub-field defaults to `""` when missing,
null, or otherwise falsy; and the address `type` and education `levels`
fields are lower-cased after defaulting. -/
theorem list_record_fields_normalization :
    (∀ v, (∀ xs, v ≠ .list xs) →
        ResumeParser._normalize_addresses v = .ok (.list [])
        ∧ ResumeParser._normalize_academic_education v = .ok (.list [])
        ∧ ResumeParser._normalize_employment v = .list [])
    ∧ (∀ v xs, (∀ fs, v ≠ .dict fs) →
        ResumeParser.normalizeAddressList (v :: xs) = ResumeParser.normalizeAddressList xs
        ∧ ResumeParser.normalizeEducationList (v :: xs) = ResumeParser.normalizeEducationList xs
        ∧ ResumeParser.normalizeEmploymentList (v :: xs) = ResumeParser.normalizeEmploymentList xs)
    ∧ (∀ fs k e, ResumeParser.normalizeAddressEntry fs = .ok e →
        k ∈ (["address", "post_name", "post_code"] : List String) →
        pyTruthy (dictGetD fs k (.str "")) = false → getField e k = .str "")
    ∧ (∀ fs k e, ResumeParser.normalizeEducationEntry fs = .ok e →
        k ∈ (["subject", "board", "institute", "passing_year", "result"] : List String) →
        pyTruthy (dictGetD fs k (.str "")) = false → getField e k = .str "")
    ∧ (∀ fs k, k ∈ (["company_name", "company_type", "position", "joining_date",
          "leaving_date", "responsibility"] : List String) →
        pyTruthy (dictGetD fs k (.str "")) = false →
        getField (ResumeParser.normalizeEmploymentEntry fs) k = .str "")
    ∧ (∀ fs s, dictGetD fs "type" .none = .str s →
        ∃ e, ResumeParser.normalizeAddressEntry fs = .ok e
          ∧ getField e "type" = .str (pyLowerStr s))
    ∧ (∀ fs s, dictGetD fs "levels" .none = .str s →
        ∃ e, ResumeParser.normalizeEducationEntry fs = .ok e
          ∧ getField e "levels" = .str (pyLowerStr s)) := by
  refine ⟨?_, ?_, ?_, ?_, ?_, ?_, ?_⟩
  · intro v hv
    cases v with
    | list xs => exact absurd rfl (hv xs)
    | none => exact ⟨rfl, rfl, rfl⟩
    | bool b => exact ⟨rfl, rfl, rfl⟩
    | int n => exact ⟨rfl, rfl, rfl⟩
    | str s => exact ⟨rfl, rfl, rfl⟩
    | dict fs => exact ⟨rfl, rfl, rfl⟩
  · intro v xs hv
    cases v with
    | dict fs => exact absurd rfl (hv fs)
    | none => exact ⟨rfl, rfl, rfl⟩
    | bool b => exact ⟨rfl, rfl, rfl⟩
    | int n => exact ⟨rfl, rfl, rfl⟩
    | str s => exact ⟨rfl, rfl, rfl⟩
    | list ys => exact ⟨rfl, rfl, rfl⟩
  · intro fs k e hok hk hfalsy
    cases hl : pyLowerField (orEmpty (dictGetD fs "type" .none)) with
    | error err =>
        unfold ResumeParser.normalizeAddressEntry at hok
        rw [hl] at hok
        cases hok
    | ok ty =>
        unfold ResumeParser.normalizeAddressEntry at hok
        rw [hl] at hok
        simp only [Except.ok.injEq] at hok
        subst hok
        fin_cases hk <;> simp [getField, dictGetD, orEmpty, hfalsy]
  · intro fs k e hok hk hfalsy
    cases hl : pyLowerField (orEmpty (dictGetD fs "levels" .none)) with
    | error err =>
        unfold ResumeParser.normalizeEducationEntry at hok
        rw [hl] at hok
        cases hok
    | ok lv =>
        unfold ResumeParser.normalizeEducationEntry at hok
        rw [hl] at hok
        simp only [Except.ok.injEq] at hok
        subst hok
        fin_cases hk <;> simp [getField, dictGetD, orEmpty, hfalsy]
  · intro fs k hk hfalsy
    fin_cases hk <;>
      simp [getField, ResumeParser.normalizeEmploymentEntry, dictGetD, orEmpty, hfalsy]
  · intro fs s hs
    refine ⟨.dict [("type", .str (pyLowerStr s)),
        ("address", orEmpty (dictGetD fs "address" (.str ""))),
        ("post_name", orEmpty (dictGetD fs "post_name" (.str ""))),
        ("post_code", orEmpty (dictGetD fs "post_code" (.str "")))], ?_, rfl⟩
    unfold ResumeParser.normalizeAddressEntry
    rw [hs, orEmpty_str]
    exact rfl
  · intro fs s hs
    refine ⟨.dict [("levels", .str (pyLowerStr s)),
        ("subject", orEmpty (dictGetD fs "subject" (.str ""))),
        ("board", orEmpty (dictGetD fs "board" (.str ""))),
        ("institute", orEmpty (dictGetD fs "institute" (.str ""))),
        ("passing_year", orEmpty (dictGetD fs "passing_year" (.str ""))),
        ("result", orEmpty (dictGetD fs "result" (.str "")))], ?_, rfl⟩
    unfold ResumeParser.normalizeEducationEntry
    rw [hs, orEmpty_str]
    exact rfl

/-- C7, witness: the clauses instantiated concretely — `null` as each
list field gives `[]`, a bare-string element is dropped, a null `address`
sub-field defaults to `""`, falsy education/employment sub-fields default
to `""`, and `"HOME"`/`"SSC"` are lower-cased. -/
theorem list_record_fields_normalization_witness :
    ResumeParser._normalize_addresses .none = .ok (.list [])
    ∧ ResumeParser.normalizeAddressList [.str "x"] = ResumeParser.normalizeAddressList []
    ∧ getField (.dict [("type", .str ""), ("address", .str ""),
        ("post_name", .str ""), ("post_code", .str "")]) "address" = .str ""
    ∧ getField (.dict [("levels", .str ""), ("subject", .str ""), ("board", .str ""),
        ("institute", .str ""), ("passing_year", .str ""), ("result", .str "")])
        "subject" = .str ""
    ∧ getField (ResumeParser.normalizeEmploymentEntry [("position", .none)])
        "position" = .str ""
    ∧ (∃ e, ResumeParser.normalizeAddressEntry [("type", .str "HOME")] = .ok e
        ∧ getField e "type" = .str (pyLowerStr "HOME"))
    ∧ (∃ e, ResumeParser.normalizeEducationEntry [("levels", .str "SSC")] = .ok e
        ∧ getField e "levels" = .str (pyLowerStr "SSC")) :=
  ⟨(list_record_fields_normalization.1 .none (fun xs h => by cases h)).1,
   (list_record_fields_normalization.2.1 (.str "x") [] (fun fs h => by cases h)).1,
   list_record_fields_normalization.2.2.1 [("address", .none)] "address" _
     rfl (by decide) (by decide),
   list_record_fields_normalization.2.2.2.1 [("subject", .str "")] "subject" _
     rfl (by decide) (by decide),
   list_record_fields_normalization.2.2.2.2.1 [("position", .none)] "position"
     (by decide) (by decide),
   list_record_fields_normalization.2.2.2.2.2.1 [("type", .str "HOME")] "HOME" rfl,
   list_record_fields_normalization.2.2.2.2.2.2 [("levels", .str "SSC")] "SSC" rfl⟩

/-! ## Idempotence of the normalizers (claim C2) -/

theorem pyLowerField_ok_inv (v ty : PyVal) (h : pyLowerField v = .ok ty) :
    ∃ s, v = .str s ∧ ty = .str (pyLowerStr s) := by
  cases v with
  | str s =>
      refine ⟨s, rfl, ?_⟩
      simpa [pyLowerField] using h.symm
  | none => simp [pyLowerField] at h
  | bool b => simp [pyLowerField] at h
  | int n => simp [pyLowerField] at h
  | list xs => simp [pyLowerField] at h
  | dict fs => simp [pyLowerField] at h

theorem nui_idem (u : PyVal) :
    ResumeParser._normalize_user_info (ResumeParser._normalize_user_info u) =
      ResumeParser._normalize_user_info u := by
  simp [ResumeParser._normalize_user_info, dictGetD, orEmpty_orEmpty]

theorem normalizeAddressEntry_idem (fs : List (String × PyVal)) (e : PyVal)
    (h : ResumeParser.normalizeAddressEntry fs = .ok e) :
    ∃ gs, e = .dict gs ∧ ResumeParser.normalizeAddressEntry gs = .ok e := by
  unfold ResumeParser.normalizeAddressEntry at h
  cases hl : pyLowerField (orEmpty (dictGetD fs "type" .none)) with
  | error err => rw [hl] at h; cases h
  | ok ty =>
      rw [hl] at h
      simp only [Except.ok.injEq] at h
      obtain ⟨s, hv, hty⟩ := pyLowerField_ok_inv _ _ hl
      refine ⟨[("type", ty),
        ("address", orEmpty (dictGetD fs "address" (.str ""))),
        ("post_name", orEmpty (dictGetD fs "post_name" (.str ""))),
        ("post_code", orEmpty (dictGetD fs "post_code" (.str "")))], h.symm, ?_⟩
      subst hty
      unfold ResumeParser.normalizeAddressEntry
      rw [← h]
      simp [dictGetD, orEmpty_str, pyLowerField, pyLowerStr_idem, orEmpty_orEmpty]

theorem normalizeAddressList_fix (xs l : List PyVal)
    (h : ResumeParser.normalizeAddressList xs = .ok l) :
    ResumeParser.normalizeAddressList l = .ok l := by
  induction xs generalizing l with
  | nil =>
      simp only [ResumeParser.normalizeAddressList, Except.ok.injEq] at h
      subst h; rfl
  | cons x rest ih =>
      cases x with
      | dict fs =>
          simp only [ResumeParser.normalizeAddressList] at h
          cases hentry : ResumeParser.normalizeAddressEntry fs with
          | error err => rw [hentry] at h; cases h
          | ok e =>
              rw [hentry] at h
              cases hrest : ResumeParser.normalizeAddressList rest with
              | error err => rw [hrest] at h; cases h
              | ok es =>
                  rw [hrest] at h
                  simp only [Except.ok.injEq] at h
                  subst h
                  obtain ⟨gs, hge, hgs⟩ := normalizeAddressEntry_idem fs e hentry
                  subst hge
                  simp [ResumeParser.normalizeAddressList, hgs, ih es hrest]
      | none => exact ih l h
      | bool b => exact ih l h
      | int n => exact ih l h
      | str s => exact ih l h
      | list ys => exact ih l h

theorem normalizeEducationEntry_idem (fs : List (String × PyVal)) (e : PyVal)
    (h : ResumeParser.normalizeEducationEntry fs = .ok e) :
    ∃ gs, e = .dict gs ∧ ResumeParser.normalizeEducationEntry gs = .ok e := by
  unfold ResumeParser.normalizeEducationEntry at h
  cases hl : pyLowerField (orEmpty (dictGetD fs "levels" .none)) with
  | error err => rw [hl] at h; cases h
  | ok lv =>
      rw [hl] at h
      simp only [Except.ok.injEq] at h
      obtain ⟨s, hv, hty⟩ := pyLowerField_ok_inv _ _ hl
      refine ⟨[("levels", lv),
        ("subject", orEmpty (dictGetD fs "subject" (.str ""))),
        ("board", orEmpty (dictGetD fs "board" (.str ""))),
        ("institute", orEmpty (dictGetD fs "institute" (.str ""))),
        ("passing_year", orEmpty (dictGetD fs "passing_year" (.str ""))),
        ("result", orEmpty (dictGetD fs "result" (.str "")))], h.symm, ?_⟩
      subst hty
      unfold ResumeParser.normalizeEducationEntry
      rw [← h]
      simp [dictGetD, orEmpty_str, pyLowerField, pyLowerStr_idem, orEmpty_orEmpty]

theorem normalizeEducationList_fix (xs l : List PyVal)
    (h : ResumeParser.normalizeEducationList xs = .ok l) :
    ResumeParser.normalizeEducationList l = .ok l := by
  induction xs generalizing l with
  | nil =>
      simp only [ResumeParser.normalizeEducationList, Except.ok.injEq] at h
      subst h; rfl
  | cons x rest ih =>
      cases x with
      | dict fs =>
          simp only [ResumeParser.normalizeEducationList] at h
          cases hentry : ResumeParser.normalizeEducationEntry fs with
          | error err => rw [hentry] at h; cases h
          | ok e =>
              rw [hentry] at h
              cases hrest : ResumeParser.normalizeEducationList rest with
              | error err => rw [hrest] at h; cases h
              | ok es =>
                  rw [hrest] at h
                  simp only [Except.ok.injEq] at h
                  subst h
                  obtain ⟨gs, hge, hgs⟩ := normalizeEducationEntry_idem fs e hentry
                  subst hge
                  simp [ResumeParser.normalizeEducationList, hgs, ih es hrest]
      | none => exact ih l h
      | bool b => exact ih l h
      | int n => exact ih l h
      | str s => exact ih l h
      | list ys => exact ih l h

theorem normalizeEmploymentList_idem (xs : List PyVal) :
    ResumeParser.normalizeEmploymentList (ResumeParser.normalizeEmploymentList xs) =
      ResumeParser.normalizeEmploymentList xs := by
  induction xs with
  | nil => rfl
  | cons x rest ih =>
      cases x with
      | dict fs =>
          simp only [ResumeParser.normalizeEmploymentList, ResumeParser.normalizeEmploymentEntry]
          simp [ResumeParser.normalizeEmploymentList, ResumeParser.normalizeEmploymentEntry,
            dictGetD, orEmpty_orEmpty, ResumeParser.coerceCurrentlyWorking, pyTruthy, ih]
      | none => simpa [ResumeParser.normalizeEmploymentList] using ih
      | bool b => simpa [ResumeParser.normalizeEmploymentList] using ih
      | int n => simpa [ResumeParser.normalizeEmploymentList] using ih
      | str s => simpa [ResumeParser.normalizeEmploymentList] using ih
      | list ys => simpa [ResumeParser.normalizeEmploymentList] using ih

theorem collectSkills_map_str (l : List String) :
    ResumeParser.collectSkills (l.map .str) = l.map pyStrip := by
  induction l with
  | nil => rfl
  | cons s rest ih => simp [ResumeParser.collectSkills, ih]

theorem collectSkills_mem_stripped (items : List PyVal) (s : String)
    (h : s ∈ ResumeParser.collectSkills items) : pyStrip s = s := by
  induction items with
  | nil => cases h
  | cons x rest ih =>
      cases x with
      | str t =>
          rw [ResumeParser.collectSkills] at h
          rcases List.mem_cons.mp h with h1 | h1
          · subst h1; exact pyStrip_idem t
          · exact ih h1
      | dict fs =>
          rw [ResumeParser.collectSkills] at h
          by_cases hn : ((fs.map Prod.fst).contains "name") = true
          · rw [if_pos hn] at h
            rcases List.mem_cons.mp h with h1 | h1
            · subst h1; exact pyStrip_idem _
            · exact ih h1
          · rw [if_neg hn] at h
            exact ih h
      | none => exact ih h
      | bool b => exact ih h
      | int n => exact ih h
      | list ys => exact ih h

theorem normalize_skills_idem (v : PyVal) :
    ResumeParser._normalize_skills (ResumeParser._normalize_skills v) =
      ResumeParser._normalize_skills v := by
  unfold ResumeParser._normalize_skills
  set items := (match v with
    | PyVal.dict fs => ResumeParser.flattenSkillValues fs
    | PyVal.list xs => xs
    | _ => []) with hitems
  set ss := (ResumeParser.collectSkills items).filter (· ≠ "") with hss
  have hmap : ResumeParser.collectSkills (ss.map .str) = ss := by
    rw [collectSkills_map_str]
    have : ∀ s ∈ ss, pyStrip s = s := by
      intro s hs
      exact collectSkills_mem_stripped items s (List.mem_of_mem_filter hs)
    calc ss.map pyStrip = ss.map id := List.map_congr_left this
    _ = ss := List.map_id ss
  have hfilter : ss.filter (· ≠ "") = ss := by
    apply List.filter_eq_self.mpr
    intro a ha
    rw [hss] at ha
    exact (List.mem_filter.mp ha).2
  simp only [hmap, hfilter]

theorem normalize_addresses_fix (v ad : PyVal)
    (h : ResumeParser._normalize_addresses v = .ok ad) :
    ∃ as, ad = .list as ∧ ResumeParser.normalizeAddressList as = .ok as := by
  cases v with
  | list xs =>
      simp only [ResumeParser._normalize_addresses] at h
      cases hr : ResumeParser.normalizeAddressList xs with
      | error e => rw [hr] at h; simp [Except.map] at h
      | ok l =>
          rw [hr] at h
          simp only [Except.map, Except.ok.injEq] at h
          exact ⟨l, h.symm, normalizeAddressList_fix xs l hr⟩
  | none => exact ⟨[], by simpa [ResumeParser._normalize_addresses] using h.symm, rfl⟩
  | bool b => exact ⟨[], by simpa [ResumeParser._normalize_addresses] using h.symm, rfl⟩
  | int n => exact ⟨[], by simpa [ResumeParser._normalize_addresses] using h.symm, rfl⟩
  | str s => exact ⟨[], by simpa [ResumeParser._normalize_addresses] using h.symm, rfl⟩
  | dict fs => exact ⟨[], by simpa [ResumeParser._normalize_addresses] using h.symm, rfl⟩

theorem normalize_education_fix (v ed : PyVal)
    (h : ResumeParser._normalize_academic_education v = .ok ed) :
    ∃ es, ed = .list es ∧ ResumeParser.normalizeEducationList es = .ok es := by
  cases v with
  | list xs =>
      simp only [ResumeParser._normalize_academic_education] at h
      cases hr : ResumeParser.normalizeEducationList xs with
      | error e => rw [hr] at h; simp [Except.map] at h
      | ok l =>
          rw [hr] at h
          simp only [Except.map, Except.ok.injEq] at h
          exact ⟨l, h.symm, normalizeEducationList_fix xs l hr⟩
  | none => exact ⟨[], by simpa [ResumeParser._normalize_academic_education] using h.symm, rfl⟩
  | bool b => exact ⟨[], by simpa [ResumeParser._normalize_academic_education] using h.symm, rfl⟩
  | int n => exact ⟨[], by simpa [ResumeParser._normalize_academic_education] using h.symm, rfl⟩
  | str s => exact ⟨[], by simpa [ResumeParser._normalize_academic_education] using h.symm, rfl⟩
  | dict fs => exact ⟨[], by simpa [ResumeParser._normalize_academic_education] using h.symm, rfl⟩

theorem normalize_employment_idem (v : PyVal) :
    ResumeParser._normalize_employment (ResumeParser._normalize_employment v) =
      ResumeParser._normalize_employment v := by
  cases v with
  | list xs => simp [ResumeParser._normalize_employment, normalizeEmploymentList_idem]
  | none => rfl
  | bool b => rfl
  | int n => rfl
  | str s => rfl
  | dict fs => rfl

/-! ## Claim C2 -/

/-- C2: normalization is idempotent as a partial function — composing
`_normalize_output` with itself (in the exception monad, so an exception
propagates unchanged) equals a single application, for every input
including non-mappings.  On a successful input, re-normalizing the
produced record returns it verbatim; on a failing input (see C1) both
sides raise the identical `AttributeError`. -/
theorem normalize_output_idempotent (x : PyVal) :
    (ResumeParser._normalize_output x).bind ResumeParser._normalize_output =
      ResumeParser._normalize_output x := by
  cases hx : ResumeParser._normalize_output x with
  | error e => rfl
  | ok v =>
      show ResumeParser._normalize_output v = .ok v
      cases x with
      | dict fs =>
          simp only [ResumeParser._normalize_output] at hx
          cases hA : ResumeParser._normalize_addresses (dictGetD fs "addresses" (.list [])) with
          | error e => rw [hA] at hx; cases hx
          | ok ad =>
              cases hE : ResumeParser._normalize_academic_education
                  (dictGetD fs "academic_education" (.list [])) with
              | error e => rw [hA, hE] at hx; cases hx
              | ok ed =>
                  rw [hA, hE] at hx
                  simp only [Except.ok.injEq] at hx
                  obtain ⟨as, had, hfixA⟩ := normalize_addresses_fix _ _ hA
                  obtain ⟨es, hed, hfixE⟩ := normalize_education_fix _ _ hE
                  subst had hed
                  have hA2 : ResumeParser._normalize_addresses (.list as) = .ok (.list as) := by
                    simp [ResumeParser._normalize_addresses, hfixA, Except.map]
                  have hE2 : ResumeParser._normalize_academic_education (.list es) =
                      .ok (.list es) := by
                    simp [ResumeParser._normalize_academic_education, hfixE, Except.map]
                  rw [← hx]
                  simp [ResumeParser._normalize_output, dictGetD, hA2, hE2, nui_idem,
                    normalize_employment_idem, normalize_skills_idem]
      | none => cases hx
      | bool b => cases hx
      | int n => cases hx
      | str s => cases hx
      | list xs => cases hx

/-! ## Finding and slicing lemmas (claim C9) -/

theorem take_append_add {α : Type} (l₁ l₂ : List α) (n : Nat) :
    (l₁ ++ l₂).take (l₁.length + n) = l₁ ++ l₂.take n := by
  induction l₁ with
  | nil => simp
  | cons a t ih =>
      have : t.length + 1 + n = (t.length + n) + 1 := by omega
      simp only [List.cons_append, List.length_cons, this, List.take_succ_cons, ih]

theorem findSub_of_isPrefixOf (needle hay : List Char)
    (h : needle.isPrefixOf hay = true) :
    OllamaExtractor.findSub needle hay = some 0 := by
  cases hay <;> simp [OllamaExtractor.findSub, h]

theorem findSub_head_notin (c₀ : Char) (needle hay : List Char)
    (hhead : needle.head? = some c₀) (h : c₀ ∉ hay) :
    OllamaExtractor.findSub needle hay = Option.none := by
  induction hay with
  | nil =>
      cases needle with
      | nil => cases hhead
      | cons a t => simp [OllamaExtractor.findSub, List.isPrefixOf]
  | cons b rest ih =>
      cases needle with
      | nil => cases hhead
      | cons a t =>
          have ha : a = c₀ := by
            simp only [List.head?_cons, Option.some.injEq] at hhead
            exact hhead
          have hb : a ≠ b := by
            rw [ha]
            exact fun he => h (he ▸ List.mem_cons_self b rest)
          have hpre : (a :: t).isPrefixOf (b :: rest) = false := by
            simp [List.isPrefixOf, hb]
          have hrest : c₀ ∉ rest := fun hm => h (List.mem_cons_of_mem b hm)
          simp [OllamaExtractor.findSub, hpre, ih hrest]

theorem findSub_append_cons (c : Char) (pre suf : List Char) (h : c ∉ pre) :
    OllamaExtractor.findSub [c] (pre ++ c :: suf) = some pre.length := by
  induction pre with
  | nil =>
      apply findSub_of_isPrefixOf
      simp [List.isPrefixOf_iff_prefix, List.cons_prefix_cons]
  | cons b rest ih =>
      have hb : c ≠ b := fun he => h (he ▸ List.mem_cons_self b rest)
      have hpre : ([c]).isPrefixOf (b :: (rest ++ c :: suf)) = false := by
        simp [List.isPrefixOf, hb]
      have hrest : c ∉ rest := fun hm => h (List.mem_cons_of_mem b hm)
      simp [OllamaExtractor.findSub, hpre, ih hrest]

theorem findSub_fence (body : List Char) (h : ('\x60' : Char) ∉ body) :
    OllamaExtractor.findSub "```".data (body ++ "```".data) = some body.length := by
  induction body with
  | nil =>
      apply findSub_of_isPrefixOf
      simp [List.isPrefixOf_iff_prefix]
  | cons b rest ih =>
      have hb : ('\x60' : Char) ≠ b := fun he => h (he ▸ List.mem_cons_self b rest)
      have hpre : ("```".data).isPrefixOf (b :: (rest ++ "```".data)) = false := by
        have h3 : "```".data = '\x60' :: '\x60' :: '\x60' :: [] := rfl
        rw [h3]
        simp [List.isPrefixOf, hb]
      have hrest : ('\x60' : Char) ∉ rest := fun hm => h (List.mem_cons_of_mem b hm)
      simp [OllamaExtractor.findSub, hpre, ih hrest]

/-! ## Claim C9 -/

/-- C9: the local-model response post-processing extracts the JSON
payload: a ```` ```json ````-tagged fenced block has its fences stripped
and the content trimmed (shown generally for any backtick-free body and
concretely for the claim's instance, whose result is the JSON text of the
mapping `\x7b"a": 1\x7d`); with no fence, the span from the first `\x7b`
to the last `\x7d` is returned verbatim, prose before and after dropped;
with neither fence nor opening brace, the trimmed raw text is returned. -/
theorem extract_json_from_response_spec :
    OllamaExtractor._extract_json_from_response "```json\n\x7b\"a\":1\x7d\n```" =
      "\x7b\"a\":1\x7d"
    ∧ OllamaExtractor._extract_json_from_response
        "Here is the result: \x7b\"a\": 1\x7d hope it helps" = "\x7b\"a\": 1\x7d"
    ∧ (∀ body : List Char, ('\x60' : Char) ∉ body →
        OllamaExtractor.extractJsonList ("```json".data ++ (body ++ "```".data)) =
          pyStripList body)
    ∧ (∀ pre mid post : List Char,
        ('\x60' : Char) ∉ pre → ('\x60' : Char) ∉ mid → ('\x60' : Char) ∉ post →
        ('\x7b' : Char) ∉ pre → ('\x7d' : Char) ∉ post →
        OllamaExtractor.extractJsonList (pre ++ ('\x7b' :: (mid ++ ('\x7d' :: post)))) =
          '\x7b' :: (mid ++ ['\x7d']))
    ∧ (∀ cs : List Char, ('\x60' : Char) ∉ cs → ('\x7b' : Char) ∉ cs →
        OllamaExtractor.extractJsonList cs = pyStripList cs) := by
  refine ⟨rfl, rfl, ?_, ?_, ?_⟩
  · intro body hb
    have hcs : ("```json".data ++ (body ++ "```".data)).drop 7 = body ++ "```".data :=
      List.drop_left' rfl
    have hf1 : OllamaExtractor.findSub "```json".data
        ("```json".data ++ (body ++ "```".data)) = some 0 :=
      findSub_of_isPrefixOf _ _ (by simp [List.isPrefixOf_iff_prefix])
    have hf2 : OllamaExtractor.findSubFrom "```".data
        ("```json".data ++ (body ++ "```".data)) (0 + 7) = some (body.length + 7) := by
      unfold OllamaExtractor.findSubFrom
      rw [show (0 : Nat) + 7 = 7 from rfl, hcs, findSub_fence body hb]
      rfl
    have hslice : OllamaExtractor.slice ("```json".data ++ (body ++ "```".data)) (0 + 7)
        (body.length + 7) = body := by
      unfold OllamaExtractor.slice
      rw [show (0 : Nat) + 7 = 7 from rfl, hcs, Nat.add_sub_cancel]
      exact List.take_left body _
    simp only [OllamaExtractor.extractJsonList, hf1, hf2, hslice]
  · intro pre mid post hgpre hgmid hgpost hbpre hbpost
    have hnb : ('\x60' : Char) ∉ pre ++ ('\x7b' :: (mid ++ ('\x7d' :: post))) := by
      intro hmem
      rcases List.mem_append.mp hmem with h1 | h1
      · exact hgpre h1
      · rcases List.mem_cons.mp h1 with h2 | h2
        · exact absurd h2 (by decide)
        · rcases List.mem_append.mp h2 with h3 | h3
          · exact hgmid h3
          · rcases List.mem_cons.mp h3 with h4 | h4
            · exact absurd h4 (by decide)
            · exact hgpost h4
    have hf1 : OllamaExtractor.findSub "```json".data
        (pre ++ ('\x7b' :: (mid ++ ('\x7d' :: post)))) = Option.none :=
      findSub_head_notin '\x60' _ _ rfl hnb
    have hf2 : OllamaExtractor.findSub "```".data
        (pre ++ ('\x7b' :: (mid ++ ('\x7d' :: post)))) = Option.none :=
      findSub_head_notin '\x60' _ _ rfl hnb
    have hfb : OllamaExtractor.findSub ['\x7b']
        (pre ++ ('\x7b' :: (mid ++ ('\x7d' :: post)))) = some pre.length :=
      findSub_append_cons '\x7b' pre _ hbpre
    have hsplit : pre ++ ('\x7b' :: (mid ++ ('\x7d' :: post))) =
        (pre ++ '\x7b' :: mid) ++ ('\x7d' :: post) := by simp
    have hrevcs : (pre ++ ('\x7b' :: (mid ++ ('\x7d' :: post)))).reverse =
        post.reverse ++ ('\x7d' :: (pre ++ '\x7b' :: mid).reverse) := by
      rw [hsplit]
      simp [List.reverse_append, List.reverse_cons, List.append_assoc]
    have hbpost' : ('\x7d' : Char) ∉ post.reverse := by simpa using hbpost
    have hlen : (pre ++ ('\x7b' :: (mid ++ ('\x7d' :: post)))).length =
        pre.length + mid.length + post.length + 2 := by
      simp only [List.length_append, List.length_cons]
      omega
    have hrfind : OllamaExtractor.rfindChar '\x7d'
        (pre ++ ('\x7b' :: (mid ++ ('\x7d' :: post)))) =
        some (pre.length + mid.length + 1) := by
      unfold OllamaExtractor.rfindChar
      rw [hrevcs, findSub_append_cons '\x7d' post.reverse _ hbpost']
      simp only [Option.map_some', List.length_reverse, hlen]
      congr 1
      omega
    have hslice : OllamaExtractor.slice (pre ++ ('\x7b' :: (mid ++ ('\x7d' :: post))))
        pre.length (pre.length + mid.length + 1 + 1) = '\x7b' :: (mid ++ ['\x7d']) := by
      unfold OllamaExtractor.slice
      rw [List.drop_left]
      have harith : pre.length + mid.length + 1 + 1 - pre.length = mid.length + 1 + 1 := by
        omega
      rw [harith, List.take_succ_cons]
      congr 1
      rw [show mid.length + 1 = mid.length + 1 from rfl, take_append_add mid ('\x7d' :: post) 1]
      rfl
    simp only [OllamaExtractor.extractJsonList, OllamaExtractor.braceFallback, hf1, hf2,
      hfb, hrfind]
    rw [if_pos (by omega)]
    exact hslice
  · intro cs hg hbr
    have hf1 := findSub_head_notin '\x60' "```json".data cs rfl hg
    have hf2 := findSub_head_notin '\x60' "```".data cs rfl hg
    have hfb := findSub_head_notin '\x7b' ['\x7b'] cs rfl hbr
    simp only [OllamaExtractor.extractJsonList, OllamaExtractor.braceFallback, hf1, hf2, hfb]

/-- C9, witness: the general clauses instantiated at concrete inputs —
a backtick-free fenced body, a prose-wrapped brace span, and a text with
neither fences nor braces. -/
theorem extract_json_from_response_spec_witness :
    OllamaExtractor.extractJsonList ("```json".data ++ (" ok ".data ++ "```".data)) =
      pyStripList " ok ".data
    ∧ OllamaExtractor.extractJsonList
        ("ab".data ++ ('\x7b' :: ("x".data ++ ('\x7d' :: "cd".data)))) =
        '\x7b' :: ("x".data ++ ['\x7d'])
    ∧ OllamaExtractor.extractJsonList " plain text ".data = pyStripList " plain text ".data :=
  ⟨extract_json_from_response_spec.2.2.1 " ok ".data (by decide),
   extract_json_from_response_spec.2.2.2.1 "ab".data "x".data "cd".data
     (by decide) (by decide) (by decide) (by decide) (by decide),
   extract_json_from_response_spec.2.2.2.2 " plain text ".data (by decide) (by decide)⟩

/-! ## Stage lemmas for text cleaning (claim C8) -/

theorem hasNL3Aux_replicate_min (k : Nat) :
    hasNL3Aux 0 (List.replicate (min k 2) '\n') = false := by
  have h : min k 2 = 0 ∨ min k 2 = 1 ∨ min k 2 = 2 := by omega
  rcases h with h | h | h <;> rw [h] <;> decide

theorem hasNL3Aux_head_skip (m : Nat) (hm : m ≤ 2) (c : Char) (hc : c ≠ '\n')
    (tail : List Char) :
    hasNL3Aux 0 (List.replicate m '\n' ++ c :: tail) = hasNL3Aux 0 tail := by
  have h : m = 0 ∨ m = 1 ∨ m = 2 := by omega
  rcases h with h | h | h <;> subst h <;> simp [hasNL3Aux, hc]

theorem nlCollapseAux_no_triple (cs : List Char) : ∀ k : Nat,
    hasNL3Aux 0 (PDFExtractor.nlCollapseAux k cs) = false := by
  induction cs with
  | nil =>
      intro k
      exact hasNL3Aux_replicate_min k
  | cons c rest ih =>
      intro k
      by_cases hc : c = '\n'
      · simp [PDFExtractor.nlCollapseAux, hc, ih (k + 1)]
      · simp only [PDFExtractor.nlCollapseAux, if_neg hc]
        rw [hasNL3Aux_head_skip (min k 2) (by omega) c hc]
        exact ih 0

theorem nlCollapseAux_replicate (n : Nat) : ∀ (k : Nat) (rest : List Char),
    PDFExtractor.nlCollapseAux k (List.replicate n '\n' ++ rest) =
      PDFExtractor.nlCollapseAux (k + n) rest := by
  induction n with
  | zero => intro k rest; simp
  | succ m ih =>
      intro k rest
      have : List.replicate (m + 1) '\n' ++ rest = '\n' :: (List.replicate m '\n' ++ rest) := by
        simp [List.replicate_succ]
      rw [this]
      simp only [PDFExtractor.nlCollapseAux, if_pos rfl]
      rw [ih (k + 1) rest]
      have harith : k + 1 + m = k + (m + 1) := by omega
      rw [harith]
      simp

theorem nlCollapseAux_run_to_two (n : Nat) (c : Char) (cs : List Char) (hc : c ≠ '\n') :
    PDFExtractor.nlCollapseAux 0 (List.replicate (n + 3) '\n' ++ c :: cs) =
      '\n' :: '\n' :: c :: PDFExtractor.nlCollapseAux 0 cs := by
  rw [nlCollapseAux_replicate (n + 3) 0 (c :: cs)]
  simp only [PDFExtractor.nlCollapseAux, if_neg hc]
  have : min (0 + (n + 3)) 2 = 2 := by omega
  rw [this]
  rfl

theorem nlCollapseAux_filter (cs : List Char) : ∀ k : Nat,
    (PDFExtractor.nlCollapseAux k cs).filter (fun c => c != '\n') =
      cs.filter (fun c => c != '\n') := by
  induction cs with
  | nil =>
      intro k
      have : ∀ m, (List.replicate m '\n').filter (fun c => c != '\n') = [] := by
        intro m
        induction m with
        | zero => rfl
        | succ j ihj => simp [List.replicate_succ, List.filter_cons, ihj]
      simp only [PDFExtractor.nlCollapseAux]
      exact this (min k 2)
  | cons c rest ih =>
      intro k
      by_cases hc : c = '\n'
      · subst hc
        simp [PDFExtractor.nlCollapseAux, List.filter_cons, ih (k + 1)]
      · have hrep : ∀ m, (List.replicate m '\n').filter (fun c => c != '\n') = [] := by
          intro m
          induction m with
          | zero => rfl
          | succ j ihj => simp [List.replicate_succ, List.filter_cons, ihj]
        simp only [PDFExtractor.nlCollapseAux, if_neg hc]
        rw [List.filter_append, hrep (min k 2)]
        simp [List.filter_cons, hc, ih 0]

theorem spaceTabCollapseAux_replicate (n : Nat) : ∀ (b : Bool) (rest : List Char),
    PDFExtractor.spaceTabCollapseAux b (List.replicate (n + 1) ' ' ++ rest) =
      PDFExtractor.spaceTabCollapseAux true rest := by
  induction n with
  | zero =>
      intro b rest
      simp [PDFExtractor.spaceTabCollapseAux, PDFExtractor.isSpTab]
  | succ m ih =>
      intro b rest
      have : List.replicate (m + 2) ' ' ++ rest = ' ' :: (List.replicate (m + 1) ' ' ++ rest) := by
        simp [List.replicate_succ]
      rw [this]
      simp only [PDFExtractor.spaceTabCollapseAux]
      rw [if_pos (by decide)]
      exact ih true rest

theorem spaceTabCollapseAux_run_to_one (n : Nat) (c : Char) (cs : List Char)
    (hc : PDFExtractor.isSpTab c = false) :
    PDFExtractor.spaceTabCollapseAux false (List.replicate (n + 1) ' ' ++ c :: cs) =
      ' ' :: c :: PDFExtractor.spaceTabCollapseAux false cs := by
  rw [spaceTabCollapseAux_replicate n false (c :: cs)]
  simp [PDFExtractor.spaceTabCollapseAux, hc]

theorem spaceTabCollapseAux_no_tab (cs : List Char) : ∀ b : Bool,
    ('\t' : Char) ∉ PDFExtractor.spaceTabCollapseAux b cs := by
  induction cs with
  | nil => intro b; cases b <;> simp [PDFExtractor.spaceTabCollapseAux]
  | cons c rest ih =>
      intro b
      by_cases hc : PDFExtractor.isSpTab c = true
      · simpa [PDFExtractor.spaceTabCollapseAux, hc] using ih true
      · have hc' : PDFExtractor.isSpTab c = false := by simpa using hc
        have hct : c ≠ '\t' := by
          intro he
          subst he
          simp [PDFExtractor.isSpTab] at hc'
        cases b <;>
          simp [PDFExtractor.spaceTabCollapseAux, hc', List.mem_cons, ih false,
            Ne.symm hct]

theorem spaceTabCollapseAux_chain (cs : List Char) : ∀ b : Bool,
    List.Chain' (fun a c => ¬(PDFExtractor.isSpTab a = true ∧ PDFExtractor.isSpTab c = true))
      (PDFExtractor.spaceTabCollapseAux b cs) := by
  induction cs with
  | nil => intro b; cases b <;> simp [PDFExtractor.spaceTabCollapseAux]
  | cons c rest ih =>
      intro b
      by_cases hc : PDFExtractor.isSpTab c = true
      · simpa [PDFExtractor.spaceTabCollapseAux, hc] using ih true
      · have hc' : PDFExtractor.isSpTab c = false := by simpa using hc
        have htail : List.Chain'
            (fun a c => ¬(PDFExtractor.isSpTab a = true ∧ PDFExtractor.isSpTab c = true))
            (c :: PDFExtractor.spaceTabCollapseAux false rest) := by
          rw [List.chain'_cons']
          exact ⟨fun h _ => by simp [hc'], ih false⟩
        cases b with
        | false => simpa [PDFExtractor.spaceTabCollapseAux, hc'] using htail
        | true =>
            simp only [PDFExtractor.spaceTabCollapseAux, hc', if_neg, Bool.false_eq_true,
              not_false_eq_true, if_pos]
            rw [List.chain'_cons]
            exact ⟨by simp [hc'], htail⟩

theorem spaceTabCollapseAux_count_nl (cs : List Char) : ∀ b : Bool,
    (PDFExtractor.spaceTabCollapseAux b cs).count '\n' = cs.count '\n' := by
  induction cs with
  | nil => intro b; cases b <;> simp [PDFExtractor.spaceTabCollapseAux]
  | cons c rest ih =>
      intro b
      by_cases hc : PDFExtractor.isSpTab c = true
      · have hcn : c ≠ '\n' := by
          intro he
          subst he
          simp [PDFExtractor.isSpTab] at hc
        rw [show PDFExtractor.spaceTabCollapseAux b (c :: rest) =
            PDFExtractor.spaceTabCollapseAux true rest by
          simp [PDFExtractor.spaceTabCollapseAux, hc]]
        rw [ih true, List.count_cons]
        simp [hcn]
      · have hc' : PDFExtractor.isSpTab c = false := by simpa using hc
        cases b with
        | false =>
            simp [PDFExtractor.spaceTabCollapseAux, hc', List.count_cons, ih false]
        | true =>
            simp [PDFExtractor.spaceTabCollapseAux, hc', List.count_cons, ih false]

theorem dedupBlankLines_mem (L : List (List Char)) : ∀ (b : Bool) (l : List Char),
    l ∈ PDFExtractor.dedupBlankLines b L → l = [] ∨ l ∈ L := by
  induction L with
  | nil => intro b l h; cases h
  | cons x rest ih =>
      intro b l h
      by_cases hx : x.isEmpty = true
      · by_cases hb : b = true
        · rw [show PDFExtractor.dedupBlankLines b (x :: rest) =
              PDFExtractor.dedupBlankLines true rest by
            simp [PDFExtractor.dedupBlankLines, hx, hb]] at h
          rcases ih true l h with h1 | h1
          · exact Or.inl h1
          · exact Or.inr (List.mem_cons_of_mem x h1)
        · have hb' : b = false := by simpa using hb
          subst hb'
          rw [show PDFExtractor.dedupBlankLines false (x :: rest) =
              [] :: PDFExtractor.dedupBlankLines true rest by
            simp [PDFExtractor.dedupBlankLines, hx]] at h
          rcases List.mem_cons.mp h with h1 | h1
          · exact Or.inl h1
          · rcases ih true l h1 with h2 | h2
            · exact Or.inl h2
            · exact Or.inr (List.mem_cons_of_mem x h2)
      · have hx' : x.isEmpty = false := by simpa using hx
        rw [show PDFExtractor.dedupBlankLines b (x :: rest) =
            x :: PDFExtractor.dedupBlankLines false rest by
          simp [PDFExtractor.dedupBlankLines, hx']] at h
        rcases List.mem_cons.mp h with h1 | h1
        · exact Or.inr (h1 ▸ List.mem_cons_self x rest)
        · rcases ih false l h1 with h2 | h2
          · exact Or.inl h2
          · exact Or.inr (List.mem_cons_of_mem x h2)

theorem dedupBlankLines_true_head (L : List (List Char)) :
    ∀ h ∈ (PDFExtractor.dedupBlankLines true L).head?, h ≠ [] := by
  induction L with
  | nil => intro h hh; cases hh
  | cons x rest ih =>
      intro h hh
      by_cases hx : x.isEmpty = true
      · rw [show PDFExtractor.dedupBlankLines true (x :: rest) =
            PDFExtractor.dedupBlankLines true rest by
          simp [PDFExtractor.dedupBlankLines, hx]] at hh
        exact ih h hh
      · have hx' : x.isEmpty = false := by simpa using hx
        rw [show PDFExtractor.dedupBlankLines true (x :: rest) =
            x :: PDFExtractor.dedupBlankLines false rest by
          simp [PDFExtractor.dedupBlankLines, hx']] at hh
        simp only [List.head?_cons, Option.mem_def, Option.some.injEq] at hh
        subst hh
        intro he
        subst he
        simp at hx'

theorem dedupBlankLines_chain (L : List (List Char)) : ∀ b : Bool,
    List.Chain' (fun a c => a ≠ [] ∨ c ≠ []) (PDFExtractor.dedupBlankLines b L) := by
  induction L with
  | nil => intro b; simp [PDFExtractor.dedupBlankLines]
  | cons x rest ih =>
      intro b
      by_cases hx : x.isEmpty = true
      · by_cases hb : b = true
        · rw [show PDFExtractor.dedupBlankLines b (x :: rest) =
              PDFExtractor.dedupBlankLines true rest by
            simp [PDFExtractor.dedupBlankLines, hx, hb]]
          exact ih true
        · have hb' : b = false := by simpa using hb
          subst hb'
          rw [show PDFExtractor.dedupBlankLines false (x :: rest) =
              [] :: PDFExtractor.dedupBlankLines true rest by
            simp [PDFExtractor.dedupBlankLines, hx]]
          rw [List.chain'_cons']
          refine ⟨fun h hh => Or.inr (dedupBlankLines_true_head rest h hh), ih true⟩
      · have hx' : x.isEmpty = false := by simpa using hx
        rw [show PDFExtractor.dedupBlankLines b (x :: rest) =
            x :: PDFExtractor.dedupBlankLines false rest by
          simp [PDFExtractor.dedupBlankLines, hx']]
        rw [List.chain'_cons']
        refine ⟨fun h _ => Or.inl ?_, ih false⟩
        intro he
        subst he
        simp at hx'

/-! ## Claim C8 -/

/-- C8: the text-cleaning contracts, stage by stage, for every input.
The newline pass leaves no run of three newlines, turns a run of `n + 3`
newlines before other text into exactly two, and touches no non-newline
character.  The space pass turns every run of `n + 1` spaces into one
space, leaves no tab and no two adjacent spaces/tabs, and leaves the
newlines untouched (their count is preserved).  Every line of the final
line list is its own trim, and no two consecutive blank lines remain.
Concretely: 4 newlines collapse to exactly 2 (and 2 stay 2), a run of 5
spaces collapses to 1, and leading/trailing line whitespace is
stripped. -/
theorem clean_text_spec :
    (∀ (cs : List Char) (k : Nat), hasNL3 (PDFExtractor.nlCollapseAux k cs) = false)
    ∧ (∀ (n : Nat) (c : Char) (cs : List Char), c ≠ '\n' →
        PDFExtractor.nlCollapseAux 0 (List.replicate (n + 3) '\n' ++ c :: cs) =
          '\n' :: '\n' :: c :: PDFExtractor.nlCollapseAux 0 cs)
    ∧ (∀ (cs : List Char) (k : Nat),
        (PDFExtractor.nlCollapseAux k cs).filter (fun c => c != '\n') =
          cs.filter (fun c => c != '\n'))
    ∧ (∀ (n : Nat) (c : Char) (cs : List Char), PDFExtractor.isSpTab c = false →
        PDFExtractor.spaceTabCollapseAux false (List.replicate (n + 1) ' ' ++ c :: cs) =
          ' ' :: c :: PDFExtractor.spaceTabCollapseAux false cs)
    ∧ (∀ (b : Bool) (cs : List Char),
        ('\t' : Char) ∉ PDFExtractor.spaceTabCollapseAux b cs
        ∧ List.Chain'
            (fun a c => ¬(PDFExtractor.isSpTab a = true ∧ PDFExtractor.isSpTab c = true))
            (PDFExtractor.spaceTabCollapseAux b cs)
        ∧ (PDFExtractor.spaceTabCollapseAux b cs).count '\n' = cs.count '\n')
    ∧ (∀ cs : List Char, ∀ l ∈ PDFExtractor.cleanLines cs, pyStripList l = l)
    ∧ (∀ cs : List Char,
        List.Chain' (fun a c => a ≠ [] ∨ c ≠ []) (PDFExtractor.cleanLines cs))
    ∧ PDFExtractor._clean_text "a\n\n\n\nb" = "a\n\nb"
    ∧ PDFExtractor._clean_text "a\n\nb" = "a\n\nb"
    ∧ PDFExtractor._clean_text "a     b" = "a b"
    ∧ PDFExtractor._clean_text "  x \t\n  y  " = "x\ny" := by
  refine ⟨?_, ?_, ?_, ?_, ?_, ?_, ?_, rfl, rfl, rfl, rfl⟩
  · intro cs k
    exact nlCollapseAux_no_triple cs k
  · intro n c cs hc
    exact nlCollapseAux_run_to_two n c cs hc
  · intro cs k
    exact nlCollapseAux_filter cs k
  · intro n c cs hc
    exact spaceTabCollapseAux_run_to_one n c cs hc
  · intro b cs
    exact ⟨spaceTabCollapseAux_no_tab cs b, spaceTabCollapseAux_chain cs b,
      spaceTabCollapseAux_count_nl cs b⟩
  · intro cs l hl
    rcases dedupBlankLines_mem _ _ _ hl with h | h
    · subst h; rfl
    · rcases List.mem_map.mp h with ⟨y, _, hy⟩
      rw [← hy]
      exact pyStripList_idem y
  · intro cs
    exact dedupBlankLines_chain _ false

/-- C8, witness: the hypothesis-bearing clauses instantiated concretely —
a run of 4 newlines before `'b'` collapses to exactly 2, a run of 5
spaces before `'b'` collapses to 1, and the concrete line list of
`"  x \t\n  y  "` consists of lines equal to their own trim. -/
theorem clean_text_spec_witness :
    PDFExtractor.nlCollapseAux 0 (List.replicate 4 '\n' ++ 'b' :: []) =
      '\n' :: '\n' :: 'b' :: PDFExtractor.nlCollapseAux 0 []
    ∧ PDFExtractor.spaceTabCollapseAux false (List.replicate 5 ' ' ++ 'b' :: []) =
        ' ' :: 'b' :: PDFExtractor.spaceTabCollapseAux false []
    ∧ pyStripList "x".data = "x".data :=
  ⟨clean_text_spec.2.1 1 'b' [] (by decide),
   clean_text_spec.2.2.2.1 4 'b' [] (by decide),
   clean_text_spec.2.2.2.2.2.1 "  x \t\n  y  ".data "x".data (by decide)⟩
